import Mathlib

/-!
Verification development for the rpmpack RPM assembler.

This file gives a shallow embedding, in Lean, of the Go sources of the
rpmpack repository (files.go, header.go, rpm.go, dir.go, tags.go) and
proves or refutes the specified properties of the assembler against it.

Go strings and byte slices are modelled as `List Char` (the sources only
manipulate them bytewise); wire bytes are modelled as `List Nat` with
each element below 256.  Machine integers are modelled as `Nat`/`Int`
with explicit reduction modulo 2^32 (or 2^16) at the points where the Go
code performs a conversion.  External collaborators (the gzip compressor,
the go-cpio framer, the sha256 hash) are not part of this repository;
they enter the model as explicit function parameters, and the few facts
needed about the cpio wire format are modelled from the specification
and marked as such.
-/

namespace Rpmpack

/-- Go strings / byte slices, modelled as lists of characters. -/
abbrev Str := List Char

/-- The characters of Go's `\s` regexp class: `[\t\n\f\r ]`. -/
def goSpace (c : Char) : Bool :=
  c = ' ' || c = '\t' || c = '\n' || c = '\x0c' || c = '\r'

/-- The three characters that can form a relation operator. -/
def relOpChar (c : Char) : Bool :=
  c = '=' || c = '<' || c = '>'

/-- Characters admissible in the name capture group `[^=<>\s]*`. -/
def relNameChar (c : Char) : Bool :=
  !(relOpChar c) && !(goSpace c)

/-- `SenseAny rpmSense = 0` (files.go). -/
def senseAny : Nat := 0

/-- `SenseLess rpmSense = 1 << iota` with iota = 1 (files.go). -/
def senseLess : Nat := 2

/-- `SenseGreater` = 1 << 2 (files.go). -/
def senseGreater : Nat := 4

/-- `SenseEqual` = 1 << 3 (files.go). -/
def senseEqual : Nat := 8

/-- The `senseStrings` map of files.go, as a lookup from sense value to
its textual operator. -/
def senseStrings (s : Nat) : Option Str :=
  if s = senseAny then some []
  else if s = senseLess then some ['<']
  else if s = senseGreater then some ['>']
  else if s = senseEqual then some ['=']
  else if s = senseLess + senseEqual then some ['<', '=']
  else if s = senseGreater + senseEqual then some ['>', '=']
  else none

/-- `rpmSense.String` (files.go): map lookup, `"UNKNOWN"` when absent. -/
def senseString (s : Nat) : Str :=
  match senseStrings s with
  | some t => t
  | none => ['U', 'N', 'K', 'N', 'O', 'W', 'N']

/-- `parseSense` (files.go): reverse lookup in `senseStrings`; the Go map
iteration order is irrelevant because the values are pairwise distinct. -/
def parseSense (s : Str) : Option Nat :=
  if s = [] then some senseAny
  else if s = ['<'] then some senseLess
  else if s = ['>'] then some senseGreater
  else if s = ['='] then some senseEqual
  else if s = ['<', '='] then some (senseLess + senseEqual)
  else if s = ['>', '='] then some (senseGreater + senseEqual)
  else none

/-- `Relation` (files.go): name, version and sense bitmask. -/
structure Relation where
  name : Str
  version : Str
  sense : Nat
deriving DecidableEq, Repr

/-- The submatch extraction of `relationMatch.FindStringSubmatch` for the
pattern `([^=<>\s]*)\s*((?:=|>|<|>=|<=)*)\s*(.*)?` (files.go).  The match
starts at position 0 (the first group may be empty), each starred group
is greedy, the operator group consumes a maximal run of `=<>` characters
(each alternative is a single such character or a pair of them), and `.`
does not match a newline. -/
def relationSubmatch (s : Str) : Str × Str × Str :=
  let name := s.takeWhile relNameChar
  let r1 := (s.dropWhile relNameChar).dropWhile goSpace
  let opStr := r1.takeWhile relOpChar
  let r2 := (r1.dropWhile relOpChar).dropWhile goSpace
  (name, opStr, r2.takeWhile (fun c => c ≠ '\n'))

/-- `NewRelation` (files.go): split the text with `relationMatch`, parse
the operator group through `parseSense`; a `none` result models the
`unknown sense value` error. -/
def NewRelation (s : Str) : Option Relation :=
  match relationSubmatch s with
  | (name, opStr, version) =>
    match parseSense opStr with
    | some sense => some ⟨name, version, sense⟩
    | none => none

/-- `Relation.String` (files.go): `fmt.Sprintf` of name, sense, version. -/
def relationString (r : Relation) : Str :=
  r.name ++ senseString r.sense ++ r.version

/-! ### Machine integers and wire bytes -/

/-- Reduction of a (signed) value to its unsigned 32-bit residue, the
bit pattern Go stores for an `int32`. -/
def toU32 (x : Int) : Nat := (x % (2 ^ 32)).toNat

/-- Go's `int32(x)` conversion on an arbitrary-width integer: keep the
low 32 bits and reinterpret them as a signed value. -/
def goInt32 (x : Int) : Int :=
  if x % (2 ^ 32) < 2 ^ 31 then x % (2 ^ 32) else x % (2 ^ 32) - 2 ^ 32

/-- Go's `uint16(x)` conversion. -/
def goUInt16 (x : Int) : Nat := (x % (2 ^ 16)).toNat

/-- Big-endian bytes of a 32-bit residue. -/
def beBytes32 (n : Nat) : List Nat :=
  [n / 2 ^ 24 % 256, n / 2 ^ 16 % 256, n / 2 ^ 8 % 256, n % 256]

/-- `binary.Write(..., binary.BigEndian, int32)` on one value. -/
def beInt32 (x : Int) : List Nat := beBytes32 (toU32 x)

/-- Big-endian bytes of a 16-bit residue. -/
def beBytes16 (n : Nat) : List Nat := [n / 256 % 256, n % 256]

/-- Decode four big-endian bytes into an unsigned value (inverse used to
read back what the assembler wrote). -/
def decodeBe32 (b : List Nat) : Nat :=
  match b with
  | [b0, b1, b2, b3] => b0 * 2 ^ 24 + b1 * 2 ^ 16 + b2 * 2 ^ 8 + b3
  | _ => 0

/-- Decode four big-endian bytes as a signed two's-complement int32. -/
def decodeSigned32 (b : List Nat) : Int :=
  let n := decodeBe32 b
  if n < 2 ^ 31 then (n : Int) else (n : Int) - 2 ^ 32

/-- Go bytes of a string (the sources only ever treat them bytewise). -/
def strBytes (s : Str) : List Nat := s.map Char.toNat

/-! ### The tag entry codec and header assembler (header.go) -/

/-- `typeInt16` (header.go). -/
def typeInt16 : Nat := 0x03

/-- `typeInt32` (header.go). -/
def typeInt32 : Nat := 0x04

/-- `typeString` (header.go). -/
def typeString : Nat := 0x06

/-- `typeBinary` (header.go). -/
def typeBinary : Nat := 0x07

/-- `typeStringArray` (header.go). -/
def typeStringArray : Nat := 0x08

/-- `signatures` header kind (header.go). -/
def signatures : Nat := 0x3e

/-- `immutable` header kind (header.go). -/
def immutable : Nat := 0x3f

/-- `IndexEntry` (header.go): rpm type, count, encoded data bytes. -/
structure IndexEntry where
  rpmtype : Nat
  count : Nat
  data : List Nat
deriving DecidableEq, Repr

/-- `NewIndexEntry` on an `[]int16`/`[]uint16` value (header.go,
`intEntry(typeInt16, ...)`). -/
def int16Entry (vals : List Int) : IndexEntry :=
  ⟨typeInt16, vals.length, vals.flatMap (fun v => beBytes16 (goUInt16 v))⟩

/-- `NewIndexEntry` on an `[]int32`/`[]uint32` value (header.go,
`intEntry(typeInt32, ...)`). -/
def int32Entry (vals : List Int) : IndexEntry :=
  ⟨typeInt32, vals.length, vals.flatMap beInt32⟩

/-- `NewIndexEntry` on a string value: NUL-terminated, count 1. -/
def stringEntry (s : Str) : IndexEntry :=
  ⟨typeString, 1, strBytes s ++ [0]⟩

/-- `NewIndexEntry` on a `[]byte` value. -/
def binaryEntry (b : List Nat) : IndexEntry :=
  ⟨typeBinary, b.length, b⟩

/-- `NewIndexEntry` on a `[]string` value: the strings joined with NUL
separators, a trailing NUL, count = number of strings. -/
def strArrayEntry (ss : List Str) : IndexEntry :=
  ⟨typeStringArray, ss.length, List.intercalate [0] (ss.map strBytes) ++ [0]⟩

/-- `boundaries` (header.go): alignment required per rpm type. -/
def boundaries (rpmtype : Nat) : Option Nat :=
  if rpmtype = typeInt16 then some 2
  else if rpmtype = typeInt32 then some 4
  else none

/-- `pad` (header.go): zero bytes inserted before an entry of the given
type when the current offset is misaligned. -/
def padBytes (rpmtype offset : Nat) : List Nat :=
  match boundaries rpmtype with
  | some b => if offset % b ≠ 0 then List.replicate (b - offset % b) 0 else []
  | none => []

/-- `IndexEntry.indexBytes` (header.go): the 16-byte index record of an
entry: tag, rpm type, data offset, count, each big-endian int32. -/
def indexRecord (tag rpmtype : Nat) (contentOffset : Int) (count : Nat) : List Nat :=
  beInt32 tag ++ beInt32 rpmtype ++ beInt32 contentOffset ++ beInt32 count

/-- An index is a map tag → entry; `Add` overwrites an existing tag and
inserts a new one (header.go). -/
def indexAdd (entries : List (Nat × IndexEntry)) (tag : Nat) (e : IndexEntry) :
    List (Nat × IndexEntry) :=
  if entries.any (fun p => p.1 = tag)
  then entries.map (fun p => if p.1 = tag then (tag, e) else p)
  else entries ++ [(tag, e)]

/-- Look up a tag in an index. -/
def indexGet (entries : List (Nat × IndexEntry)) (tag : Nat) : Option IndexEntry :=
  match entries.find? (fun p => p.1 = tag) with
  | some p => some p.2
  | none => none

/-- Comparison used to emit entries in ascending tag order, mirroring
`sortedTags` (header.go) followed by the map lookup of each tag. -/
def tagLe (a b : Nat × IndexEntry) : Prop := a.1 ≤ b.1

instance : DecidableRel tagLe := fun a b => inferInstanceAs (Decidable (a.1 ≤ b.1))

instance : IsTotal (Nat × IndexEntry) tagLe := ⟨fun a b => Nat.le_total a.1 b.1⟩

instance : IsTrans (Nat × IndexEntry) tagLe := ⟨fun _ _ _ h h2 => Nat.le_trans h h2⟩

/-- The entries in ascending tag order (header.go `sortedTags` plus map
lookup; tags in an index are pairwise distinct). -/
def sortedEntries (entries : List (Nat × IndexEntry)) : List (Nat × IndexEntry) :=
  List.insertionSort tagLe entries

/-- Offsets of the entries inside the data region, starting at `len`:
for each entry, the pair (offset before padding, recorded data offset).
This is the layout `index.Bytes` (header.go) computes while writing
`entryData`. -/
def dataLayout : Nat → List IndexEntry → List (Nat × Nat)
  | _, [] => []
  | len, e :: rest =>
    let o := len + (padBytes e.rpmtype len).length
    (len, o) :: dataLayout (o + e.data.length) rest

/-- The data region bytes for a list of entries starting at offset
`len`: padding followed by the entry data, in order (header.go). -/
def dataBytes : Nat → List IndexEntry → List Nat
  | _, [] => []
  | len, e :: rest =>
    let o := len + (padBytes e.rpmtype len).length
    padBytes e.rpmtype len ++ e.data ++ dataBytes (o + e.data.length) rest

/-- The 8 magic bytes both headers open with (header.go). -/
def headerMagic : List Nat := [0x8e, 0xad, 0xe8, 0x01, 0, 0, 0, 0]

/-- The data content of the `eigenHeader` entry (header.go): a 16-byte
index-style record with a negative offset `-16 * (entries + 1)`. -/
def eigenData (h n : Nat) : List Nat :=
  beInt32 h ++ beInt32 typeBinary ++ beInt32 (-(16 * ((n : Int) + 1))) ++ beInt32 16

/-- The entries of an index in emission order, without their tags. -/
def sortedEs (entries : List (Nat × IndexEntry)) : List IndexEntry :=
  (sortedEntries entries).map Prod.snd

/-- The data region `entryData` of `index.Bytes` (header.go): the
padded entry data in tag order followed by the 16 trailer bytes. -/
def regionBytes (h : Nat) (entries : List (Nat × IndexEntry)) : List Nat :=
  dataBytes 0 (sortedEs entries) ++ eigenData h entries.length

/-- The 16-byte index records of all entries in tag order, each
carrying the data offset assigned by the layout (header.go). -/
def recordsBytes (entries : List (Nat × IndexEntry)) : List Nat :=
  ((sortedEntries entries).zip (dataLayout 0 (sortedEs entries))).flatMap
    (fun pe => indexRecord pe.1.1 pe.1.2.rpmtype (pe.2.2 : Int) pe.1.2.count)

/-- `index.Bytes` (header.go): magic, count (+1 for the region trailer),
data-region size, the trailer index record, the sorted entry index
records, then the data region with the 16 trailer bytes last. -/
def headerBytes (h : Nat) (entries : List (Nat × IndexEntry)) : List Nat :=
  headerMagic
    ++ beInt32 ((entries.length : Int) + 1)
    ++ beInt32 ((regionBytes h entries).length : Int)
    ++ indexRecord h typeBinary (((regionBytes h entries).length : Int) - 16) 16
    ++ recordsBytes entries
    ++ regionBytes h entries

/-- `lead` (header.go): the fixed 96-byte prefix of the rpm file. -/
def leadBytes (name fullVersion : Str) : List Nat :=
  let n0 := strBytes (name ++ ['-'] ++ fullVersion)
  let n1 := if n0.length > 65 then n0.take 65 else n0
  let n := n1 ++ List.replicate (66 - n1.length) 0
  [0xed, 0xab, 0xee, 0xdb, 0x03, 0x00, 0x00, 0x00, 0x00, 0x01]
    ++ n ++ [0x00, 0x01, 0x00, 0x05] ++ List.replicate 16 0

/-! ### Tag numbers (tags.go; the few constants the sources reference
but whose defining file is not among them are modelled from the spec) -/

/-- `tagHeaderI18NTable` (tags.go). -/
def tagHeaderI18NTable : Nat := 100

/-- `sigSHA256` (tags.go). -/
def sigSHA256 : Nat := 273

/-- `sigSize` (tags.go). -/
def sigSize : Nat := 1000

/-- `sigPayloadSize` (tags.go). -/
def sigPayloadSize : Nat := 1007

/-- `tagName` (tags.go). -/
def tagName : Nat := 1000

/-- `tagVersion` (tags.go). -/
def tagVersion : Nat := 1001

/-- `tagRelease` (tags.go). -/
def tagRelease : Nat := 1002

/-- Modelled from the spec: tag number of the description tag (rpm.go
uses `tagDescription`, which the sources' tags.go does not define). -/
def tagDescription : Nat := 1005

/-- `tagSize` (tags.go). -/
def tagSize : Nat := 1009

/-- Modelled from the spec: vendor tag number (absent from tags.go). -/
def tagVendor : Nat := 1011

/-- Modelled from the spec: licence tag number (absent from tags.go). -/
def tagLicence : Nat := 1014

/-- Modelled from the spec: packager tag number (absent from tags.go). -/
def tagPackager : Nat := 1015

/-- Modelled from the spec: url tag number (absent from tags.go). -/
def tagURL : Nat := 1020

/-- `tagOS` (tags.go). -/
def tagOS : Nat := 1021

/-- `tagArch` (tags.go). -/
def tagArch : Nat := 1022

/-- `tagPrein` (tags.go). -/
def tagPrein : Nat := 1023

/-- `tagPostin` (tags.go). -/
def tagPostin : Nat := 1024

/-- `tagPreun` (tags.go). -/
def tagPreun : Nat := 1025

/-- `tagPostun` (tags.go). -/
def tagPostun : Nat := 1026

/-- `tagFileSizes` (tags.go). -/
def tagFileSizes : Nat := 1028

/-- `tagFileModes` (tags.go). -/
def tagFileModes : Nat := 1030

/-- `tagFileRDevs` (tags.go). -/
def tagFileRDevs : Nat := 1033

/-- `tagFileMTimes` (tags.go). -/
def tagFileMTimes : Nat := 1034

/-- `tagFileDigests` (tags.go). -/
def tagFileDigests : Nat := 1035

/-- `tagFileLinkTos` (tags.go). -/
def tagFileLinkTos : Nat := 1036

/-- `tagFileFlags` (tags.go). -/
def tagFileFlags : Nat := 1037

/-- `tagFileUserName` (tags.go). -/
def tagFileUserName : Nat := 1039

/-- `tagFileGroupName` (tags.go). -/
def tagFileGroupName : Nat := 1040

/-- `tagSourceRPM` (tags.go). -/
def tagSourceRPM : Nat := 1044

/-- `tagFileVerifyFlags` (tags.go). -/
def tagFileVerifyFlags : Nat := 1045

/-- `tagProvides` (tags.go). -/
def tagProvides : Nat := 1047

/-- Modelled from the spec: require-flags tag number (absent from
tags.go). -/
def tagRequireFlags : Nat := 1048

/-- Modelled from the spec: require-name tag number (absent from
tags.go). -/
def tagRequire : Nat := 1049

/-- Modelled from the spec: require-version tag number (absent from
tags.go). -/
def tagRequireVersion : Nat := 1050

/-- Modelled from the spec: conflict-flags tag number (absent from
tags.go). -/
def tagConflictFlags : Nat := 1053

/-- Modelled from the spec: conflict-name tag number (absent from
tags.go). -/
def tagConflicts : Nat := 1054

/-- Modelled from the spec: conflict-version tag number (absent from
tags.go). -/
def tagConflictVersion : Nat := 1055

/-- `tagPreinProg` (tags.go). -/
def tagPreinProg : Nat := 1085

/-- `tagPostinProg` (tags.go). -/
def tagPostinProg : Nat := 1086

/-- `tagPreunProg` (tags.go). -/
def tagPreunProg : Nat := 1087

/-- `tagPostunProg` (tags.go). -/
def tagPostunProg : Nat := 1088

/-- Modelled from the spec: obsolete-name tag number (absent from
tags.go). -/
def tagObsolete : Nat := 1090

/-- `tagFileINodes` (tags.go). -/
def tagFileINodes : Nat := 1096

/-- `tagFileLangs` (tags.go). -/
def tagFileLangs : Nat := 1097

/-- `tagProvideFlags` (tags.go). -/
def tagProvideFlags : Nat := 1112

/-- `tagProvideVersion` (tags.go). -/
def tagProvideVersion : Nat := 1113

/-- Modelled from the spec: obsolete-flags tag number (absent from
tags.go). -/
def tagObsoleteFlags : Nat := 1114

/-- Modelled from the spec: obsolete-version tag number (absent from
tags.go). -/
def tagObsoleteVersion : Nat := 1115

/-- `tagDirindexes` (tags.go). -/
def tagDirindexes : Nat := 1116

/-- `tagBasenames` (tags.go). -/
def tagBasenames : Nat := 1117

/-- `tagDirnames` (tags.go). -/
def tagDirnames : Nat := 1118

/-- `tagPayloadFormat` (tags.go). -/
def tagPayloadFormat : Nat := 1124

/-- `tagPayloadCompressor` (tags.go). -/
def tagPayloadCompressor : Nat := 1125

/-- `tagPayloadFlags` (tags.go). -/
def tagPayloadFlags : Nat := 1126

/-- Modelled from the spec: recommend-name tag number (absent from
tags.go). -/
def tagRecommends : Nat := 5046

/-- Modelled from the spec: recommend-version tag number. -/
def tagRecommendVersion : Nat := 5047

/-- Modelled from the spec: recommend-flags tag number. -/
def tagRecommendFlags : Nat := 5048

/-- Modelled from the spec: suggest-name tag number (absent from
tags.go). -/
def tagSuggests : Nat := 5049

/-- Modelled from the spec: suggest-version tag number. -/
def tagSuggestVersion : Nat := 5050

/-- Modelled from the spec: suggest-flags tag number. -/
def tagSuggestFlags : Nat := 5051

/-- `tagFileDigestAlgo` (tags.go). -/
def tagFileDigestAlgo : Nat := 5011

/-! ### Directory interner (dir.go) and path splitting -/

/-- `dirIndex.Get` (dir.go): an existing directory keeps its (first
insertion) index, a new one is appended to the dense list and receives
the next index. -/
def diGet : List Str → Str → Nat × List Str
  | [], d => (0, [d])
  | x :: xs, d =>
    if x = d then (0, x :: xs)
    else
      let p := diGet xs d
      (p.1 + 1, x :: p.2)

/-- Go's `path.Split`: everything up to and including the final slash,
and the remainder. -/
def splitPath (s : Str) : Str × Str :=
  let r := s.reverse
  ((r.dropWhile (fun c => c ≠ '/')).reverse, (r.takeWhile (fun c => c ≠ '/')).reverse)

/-! ### The assembler state (rpm.go) -/

/-- `pkg` (rpm.go): parsed package relation of the string lists. -/
structure Pkg where
  name : Str
  version : Str
  sense : Nat
deriving DecidableEq, Repr

/-- The self-provides section of `ParsePackages` (rpm.go): every parsed
Provides entry whose name equals the package name gets its version and
sense overwritten (to the bare `Version` and `SenseEqual`); if none
matched, a synthetic entry is appended at the tail. -/
def fixProvides (n v : Str) (l : List Pkg) : List Pkg :=
  let overwritten :=
    l.map (fun p => if p.name = n then { p with version := v, sense := senseEqual } else p)
  if l.any (fun p => p.name = n) then overwritten
  else overwritten ++ [⟨n, v, senseEqual⟩]

/-- `RPMFile` (rpm.go). -/
structure RPMFile where
  name : Str
  body : Str := []
  mode : Nat := 0
  owner : Str := []
  group : Str := []
  mtime : Nat := 0
deriving DecidableEq, Repr

/-- One record handed to the external cpio writer (`writePayload`,
rpm.go): name, mode, body and link count. -/
structure CpioRecord where
  name : Str
  mode : Nat
  body : Str
  links : Nat
deriving DecidableEq, Repr

/-- `RPMMetaData` (rpm.go), with the six relation lists already taken
through `parsePkg` (whose operator constants live outside the given
sources); `ParsePackages` applies `fixProvides` on top of them. -/
structure RPMMetaData where
  name : Str := []
  description : Str := []
  version : Str := []
  release : Str := []
  arch : Str := []
  os : Str := []
  vendor : Str := []
  url : Str := []
  packager : Str := []
  licence : Str := []
  provides : List Pkg := []
  obsoletes : List Pkg := []
  suggests : List Pkg := []
  recommends : List Pkg := []
  requires : List Pkg := []
  conflicts : List Pkg := []
deriving DecidableEq, Repr

/-- `RPM` (rpm.go): metadata, parsed relations, scriptlets, the file
map, and the emission state mutated by `writeFile`. -/
structure RPMState where
  name : Str := []
  description : Str := []
  version : Str := []
  release : Str := []
  arch : Str := []
  os : Str := []
  vendor : Str := []
  url : Str := []
  packager : Str := []
  licence : Str := []
  parsedProvides : List Pkg := []
  parsedObsoletes : List Pkg := []
  parseSuggests : List Pkg := []
  parsedRecommends : List Pkg := []
  parsedRequires : List Pkg := []
  parsedConflicts : List Pkg := []
  prein : Str := []
  postin : Str := []
  preun : Str := []
  postun : Str := []
  files : List RPMFile := []
  di : List Str := []
  basenames : List Str := []
  dirindexes : List Nat := []
  filesizes : List Nat := []
  filemodes : List Nat := []
  fileowners : List Str := []
  filegroups : List Str := []
  filemtimes : List Nat := []
  filedigests : List Str := []
  filelinktos : List Str := []
  cpio : List CpioRecord := []
  payloadSize : Nat := 0
  closed : Bool := false
deriving DecidableEq, Repr

/-- `NewRPM` (rpm.go): default the OS, start with empty emission state,
and run the `ParsePackages` self-provides fixup. -/
def newRPM (m : RPMMetaData) : RPMState :=
  { name := m.name, description := m.description, version := m.version,
    release := m.release, arch := m.arch,
    os := if m.os = [] then "linux".toList else m.os,
    vendor := m.vendor, url := m.url, packager := m.packager,
    licence := m.licence,
    parsedProvides := fixProvides m.name m.version m.provides,
    parsedObsoletes := m.obsoletes, parseSuggests := m.suggests,
    parsedRecommends := m.recommends, parsedRequires := m.requires,
    parsedConflicts := m.conflicts }

/-- `FullVersion` (rpm.go): version, or version-release when a release
is present. -/
def fullVersion (r : RPMState) : Str :=
  if r.release ≠ [] then r.version ++ ['-'] ++ r.release else r.version

/-- `AddFile` (rpm.go): the root directory is silently dropped, any
other entry is stored in the file map keyed by its name (replacing a
previous entry with the same name). -/
def addFile (r : RPMState) (f : RPMFile) : RPMState :=
  if f.name = ['/'] then r
  else { r with files := r.files.filter (fun g => g.name ≠ f.name) ++ [f] }

/-- `writeFile` and `writePayload` (rpm.go): split the path, intern the
directory, append to every parallel array (owner and group land in the
arrays exactly as the source writes them), dispatch on the mode bits,
and hand a record to the cpio writer.  `sha` abstracts the external
sha256 hex digest. -/
def writeFile (sha : List Nat → Str) (r : RPMState) (f : RPMFile) : RPMState :=
  let dir := (splitPath f.name).1
  let base := (splitPath f.name).2
  let d := diGet r.di dir
  let kind :=
    if f.mode &&& 0o40000 ≠ 0 then
      -- directory
      (f.mode, (4096 : Nat), ([] : Str), ([] : Str), (2 : Nat))
    else if f.mode &&& 0o120000 ≠ 0 then
      -- symlink
      (f.mode, f.body.length, [], f.body, 1)
    else
      -- regular file
      (f.mode ||| 0o100000, f.body.length, sha (strBytes f.body), [], 1)
  { r with
    di := d.2
    dirindexes := r.dirindexes ++ [d.1]
    basenames := r.basenames ++ [base]
    fileowners := r.fileowners ++ [f.group]
    filegroups := r.filegroups ++ [f.owner]
    filemtimes := r.filemtimes ++ [f.mtime]
    filesizes := r.filesizes ++ [kind.2.1]
    filedigests := r.filedigests ++ [kind.2.2.1]
    filelinktos := r.filelinktos ++ [kind.2.2.2.1]
    filemodes := r.filemodes ++ [goUInt16 kind.1]
    cpio := r.cpio ++ [⟨f.name, kind.1, f.body, kind.2.2.2.2⟩]
    payloadSize := r.payloadSize + f.body.length }

/-- An index under construction: the tag → entry map of header.go. -/
abbrev Index := List (Nat × IndexEntry)

/-- Emission order of `Write` (rpm.go): the file map keys sorted
ascending (`sort.Strings`), each key looked up in the map. -/
def fileLe (a b : RPMFile) : Prop := a.name ≤ b.name

instance : DecidableRel fileLe := fun a b => inferInstanceAs (Decidable (a.name ≤ b.name))

instance : IsTotal RPMFile fileLe := ⟨fun a b => le_total a.name b.name⟩

instance : IsTrans RPMFile fileLe := ⟨fun _ _ _ h h2 => le_trans h h2⟩

/-- The files of the map in ascending name order (rpm.go `Write`). -/
def sortFiles (fs : List RPMFile) : List RPMFile :=
  List.insertionSort fileLe fs

/-- The three parallel relation entries added for a non-empty parsed
package list (rpm.go `writeGenIndexes`, one block per category). -/
def addRelTriple (h : Index) (tN tV tF : Nat) (l : List Pkg) : Index :=
  if l.length > 0 then
    indexAdd
      (indexAdd (indexAdd h tN (strArrayEntry (l.map Pkg.name)))
        tV (strArrayEntry (l.map Pkg.version)))
      tF (int32Entry (l.map (fun p => (p.sense : Int))))
  else h

/-- `writeGenIndexes` (rpm.go): the general tags, the six relation
categories, the source-rpm tag and the scriptlet tags. -/
def writeGenIndexes (r : RPMState) (h0 : Index) : Index :=
  let h := indexAdd h0 tagHeaderI18NTable (stringEntry ['C'])
  let h := indexAdd h tagSize (int32Entry [goInt32 r.payloadSize])
  let h := indexAdd h tagName (stringEntry r.name)
  let h := indexAdd h tagDescription (stringEntry r.description)
  let h := indexAdd h tagVersion (stringEntry r.version)
  let h := indexAdd h tagRelease (stringEntry r.release)
  let h := indexAdd h tagPayloadFormat (stringEntry ("cpio".toList))
  let h := indexAdd h tagPayloadCompressor (stringEntry ("gzip".toList))
  let h := indexAdd h tagPayloadFlags (stringEntry ['9'])
  let h := indexAdd h tagOS (stringEntry r.os)
  let h := indexAdd h tagArch (stringEntry r.arch)
  let h := indexAdd h tagVendor (stringEntry r.vendor)
  let h := indexAdd h tagLicence (stringEntry r.licence)
  let h := indexAdd h tagPackager (stringEntry r.packager)
  let h := indexAdd h tagURL (stringEntry r.url)
  let h := addRelTriple h tagRequire tagRequireVersion tagRequireFlags r.parsedRequires
  let h := addRelTriple h tagObsolete tagObsoleteVersion tagObsoleteFlags r.parsedObsoletes
  let h := addRelTriple h tagConflicts tagConflictVersion tagConflictFlags r.parsedConflicts
  let h := addRelTriple h tagRecommends tagRecommendVersion tagRecommendFlags r.parsedRecommends
  let h := addRelTriple h tagSuggests tagSuggestVersion tagSuggestFlags r.parseSuggests
  let h := addRelTriple h tagProvides tagProvideVersion tagProvideFlags r.parsedProvides
  let h := indexAdd h tagSourceRPM
    (stringEntry (r.name ++ ['-'] ++ fullVersion r ++ ".src.rpm".toList))
  let h := if r.prein ≠ [] then
      indexAdd (indexAdd h tagPrein (stringEntry r.prein))
        tagPreinProg (stringEntry ("/bin/sh".toList))
    else h
  let h := if r.postin ≠ [] then
      indexAdd (indexAdd h tagPostin (stringEntry r.postin))
        tagPostinProg (stringEntry ("/bin/sh".toList))
    else h
  let h := if r.preun ≠ [] then
      indexAdd (indexAdd h tagPreun (stringEntry r.preun))
        tagPreunProg (stringEntry ("/bin/sh".toList))
    else h
  if r.postun ≠ [] then
    indexAdd (indexAdd h tagPostun (stringEntry r.postun))
      tagPostunProg (stringEntry ("/bin/sh".toList))
  else h

/-- `writeFileIndexes` (rpm.go): the parallel file arrays and the five
synthesised constant arrays. -/
def writeFileIndexes (r : RPMState) (h0 : Index) : Index :=
  let n := r.dirindexes.length
  let h := indexAdd h0 tagBasenames (strArrayEntry r.basenames)
  let h := indexAdd h tagDirindexes (int32Entry (r.dirindexes.map fun i => (i : Int)))
  let h := indexAdd h tagDirnames (strArrayEntry r.di)
  let h := indexAdd h tagFileSizes (int32Entry (r.filesizes.map fun i => (i : Int)))
  let h := indexAdd h tagFileModes (int16Entry (r.filemodes.map fun i => (i : Int)))
  let h := indexAdd h tagFileUserName (strArrayEntry r.fileowners)
  let h := indexAdd h tagFileGroupName (strArrayEntry r.filegroups)
  let h := indexAdd h tagFileMTimes (int32Entry (r.filemtimes.map fun i => (i : Int)))
  let h := indexAdd h tagFileDigests (strArrayEntry r.filedigests)
  let h := indexAdd h tagFileLinkTos (strArrayEntry r.filelinktos)
  let h := indexAdd h tagFileINodes
    (int32Entry ((List.range n).map fun i => ((i : Int) + 1)))
  let h := indexAdd h tagFileDigestAlgo (int32Entry (List.replicate n 8))
  let h := indexAdd h tagFileVerifyFlags (int32Entry (List.replicate n (-1)))
  let h := indexAdd h tagFileFlags (int32Entry (List.replicate n 0))
  let h := indexAdd h tagFileRDevs (int16Entry (List.replicate n 1))
  indexAdd h tagFileLangs (strArrayEntry (List.replicate n []))

/-- `writeSignatures` (rpm.go): `sigSize` is the compressed payload
buffer length plus the immutable header length, `sigSHA256` the hex
digest of the immutable header bytes, `sigPayloadSize` the accumulated
uncompressed size, each taken through Go's `int32` conversion. -/
def writeSignatures (sha : List Nat → Str) (payloadLen payloadSize : Nat)
    (hb : List Nat) (s0 : Index) : Index :=
  let s := indexAdd s0 sigSize (int32Entry [goInt32 ((payloadLen : Int) + hb.length)])
  let s := indexAdd s sigSHA256 (stringEntry (sha hb))
  indexAdd s sigPayloadSize (int32Entry [goInt32 payloadSize])

/-- The single error the model can surface: the closed-flag guard of
`Write` (rpm.go).  All other Go failure paths are external I/O. -/
inductive RpmErr where
  | writeAfterClose
deriving DecidableEq, Repr

/-- Everything the finalise pass produces: the four byte sections of
the sink, and the two indexes for inspection. -/
structure WriteOutput where
  lead : List Nat
  immIndex : Index
  sigIndex : Index
  hb : List Nat
  sb : List Nat
  payload : List Nat
  sink : List Nat
deriving Repr

/-- `Write` (rpm.go): fail when the closed flag is set; otherwise emit
every file in ascending name order, close the payload (`pb` abstracts
the external cpio framing and compression: it maps the records handed
to the cpio writer to the bytes of the compressed buffer), build the
immutable and signature headers, and write lead ‖ signature header ‖
8-byte padding ‖ immutable header ‖ payload.  As in the source, the
closed flag is never assigned. -/
def writeState (sha : List Nat → Str) (r : RPMState) : RPMState :=
  (sortFiles r.files).foldl (writeFile sha) r

def immIndexOf (sha : List Nat → Str) (r : RPMState) : Index :=
  writeFileIndexes (writeState sha r) (writeGenIndexes (writeState sha r) [])

def hbOf (sha : List Nat → Str) (r : RPMState) : List Nat :=
  headerBytes immutable (immIndexOf sha r)

def sigIndexOf (pb : List CpioRecord → List Nat) (sha : List Nat → Str)
    (r : RPMState) : Index :=
  writeSignatures sha (pb (writeState sha r).cpio).length
    (writeState sha r).payloadSize (hbOf sha r) []

def sbOf (pb : List CpioRecord → List Nat) (sha : List Nat → Str)
    (r : RPMState) : List Nat :=
  headerBytes signatures (sigIndexOf pb sha r)

def writeBody (pb : List CpioRecord → List Nat) (sha : List Nat → Str)
    (r : RPMState) : RPMState × WriteOutput :=
  (writeState sha r,
    ⟨leadBytes (writeState sha r).name (fullVersion (writeState sha r)),
      immIndexOf sha r, sigIndexOf pb sha r, hbOf sha r, sbOf pb sha r,
      pb (writeState sha r).cpio,
      leadBytes (writeState sha r).name (fullVersion (writeState sha r))
        ++ sbOf pb sha r
        ++ List.replicate ((8 - (sbOf pb sha r).length % 8) % 8) 0
        ++ hbOf sha r ++ pb (writeState sha r).cpio⟩)

def write (pb : List CpioRecord → List Nat) (sha : List Nat → Str)
    (r : RPMState) : Except RpmErr (RPMState × WriteOutput) :=
  if r.closed then .error .writeAfterClose
  else .ok (writeBody pb sha r)

/-! ### The uncompressed cpio wire size (external go-cpio dependency) -/

/-- Round up to a multiple of four (newc framing). -/
def pad4 (n : Nat) : Nat := n + (4 - n % 4) % 4

/-- Modelled from the spec: the byte length of one SVR4 newc cpio
record — a 110-byte ASCII header, the name with its NUL padded to a
four-byte multiple together with the header, and the body padded to a
four-byte multiple.  The go-cpio framer is not part of this repository.
-/
def cpioRecordLen (nameLen bodyLen : Nat) : Nat :=
  pad4 (110 + nameLen + 1) + pad4 bodyLen

/-- Modelled from the spec: the terminal `TRAILER!!!` record closing
every newc archive (ten name characters plus NUL). -/
def cpioTrailerLen : Nat := pad4 (110 + 10 + 1)

/-- Modelled from the spec: the uncompressed byte length of the whole
cpio stream for the given records. -/
def cpioStreamLen (rs : List CpioRecord) : Nat :=
  (rs.map (fun c => cpioRecordLen c.name.length c.body.length)).sum + cpioTrailerLen

/-! ### Observation helpers and concrete fixtures -/

/-- The full paths the emitted header file arrays denote: for each
file slot, the interned directory joined with the basename. -/
def emittedPaths (r : RPMState) : List Str :=
  (List.range r.basenames.length).map
    (fun k => r.di.getD (r.dirindexes.getD k 0) [] ++ r.basenames.getD k [])

/-- A degenerate stand-in for the external compressor, used to
instantiate theorems at concrete inputs. -/
def pbNull : List CpioRecord → List Nat := fun _ => []

/-- A degenerate stand-in for the external sha256 hex digest, used to
instantiate theorems at concrete inputs. -/
def shaNull : List Nat → Str := fun _ => []

/-- The file of the repository's own `TestFileOwner` (rpm_test.go). -/
def testOwnerFile : RPMFile :=
  { name := "/usr/local/hello".toList
    body := "content of the file".toList
    owner := "testUser".toList
    group := "testGroup".toList }

/-- The assembler of `TestFileOwner` after its `AddFile` call. -/
def testOwnerRPM : RPMState :=
  addFile (newRPM { name := ['t'], version := ['1'], release := ['A'] })
    testOwnerFile

/-! ## Theorems -/

/-- `takeWhile` keeps exactly a leading block on which the predicate
holds when the first following character refutes it. -/
theorem takeWhile_append_left (p : Char → Bool) :
    ∀ l r : List Char, (∀ c ∈ l, p c = true) →
      (∀ c cs, r = c :: cs → p c = false) →
      (l ++ r).takeWhile p = l := by
  intro l
  induction l with
  | nil =>
    intro r _ h2
    cases r with
    | nil => rfl
    | cons c cs => simp [List.takeWhile_cons, h2 c cs rfl]
  | cons x xs ih =>
    intro r h1 h2
    have hx : p x = true := h1 x (by simp)
    simp only [List.cons_append, List.takeWhile_cons, hx, if_true]
    rw [ih r (fun c hc => h1 c (by simp [hc])) h2]

/-- `dropWhile` drops exactly a leading block on which the predicate
holds when the first following character refutes it. -/
theorem dropWhile_append_right (p : Char → Bool) :
    ∀ l r : List Char, (∀ c ∈ l, p c = true) →
      (∀ c cs, r = c :: cs → p c = false) →
      (l ++ r).dropWhile p = r := by
  intro l
  induction l with
  | nil =>
    intro r _ h2
    cases r with
    | nil => rfl
    | cons c cs => simp [List.dropWhile_cons, h2 c cs rfl]
  | cons x xs ih =>
    intro r h1 h2
    have hx : p x = true := h1 x (by simp)
    simp only [List.cons_append, List.dropWhile_cons, hx, if_true]
    exact ih r (fun c hc => h1 c (by simp [hc])) h2

/-- A whitespace character is not a relation operator character. -/
theorem goSpace_not_opChar {c : Char} (h : goSpace c = true) : relOpChar c = false := by
  simp only [goSpace, Bool.or_eq_true, decide_eq_true_eq] at h
  rcases h with (((h | h) | h) | h) | h <;> subst h <;> decide

/-- A whitespace character is not a name character. -/
theorem goSpace_not_nameChar {c : Char} (h : goSpace c = true) : relNameChar c = false := by
  simp [relNameChar, h]

/-- A name character is neither an operator character, nor whitespace,
nor a newline. -/
theorem nameChar_props {c : Char} (h : relNameChar c = true) :
    relOpChar c = false ∧ goSpace c = false ∧ c ≠ '\n' := by
  simp only [relNameChar, Bool.and_eq_true, Bool.not_eq_true'] at h
  refine ⟨h.1, h.2, ?_⟩
  intro hc
  subst hc
  exact absurd h.2 (by decide)

/-- An operator character is neither whitespace nor a name character. -/
theorem opChar_props {c : Char} (h : relOpChar c = true) :
    goSpace c = false ∧ relNameChar c = false := by
  simp only [relOpChar, Bool.or_eq_true, decide_eq_true_eq] at h
  rcases h with (h | h) | h <;> subst h <;> exact ⟨by decide, by decide⟩

/-- The operator strings `parseSense` accepts consist of operator
characters and are recovered verbatim by `senseString`. -/
theorem parseSense_inv {o : Str} {s : Nat} (h : parseSense o = some s) :
    (∀ c ∈ o, relOpChar c = true) ∧ senseString s = o ∧
      (o = [] → s = senseAny) ∧ (o ≠ [] → s ≠ senseAny) := by
  unfold parseSense at h
  split_ifs at h with h1 h2 h3 h4 h5 h6
  · injection h with h0; subst h0; subst h1
    exact ⟨by decide, by decide, by decide, by decide⟩
  · injection h with h0; subst h0; subst h2
    exact ⟨by decide, by decide, by decide, by decide⟩
  · injection h with h0; subst h0; subst h3
    exact ⟨by decide, by decide, by decide, by decide⟩
  · injection h with h0; subst h0; subst h4
    exact ⟨by decide, by decide, by decide, by decide⟩
  · injection h with h0; subst h0; subst h5
    exact ⟨by decide, by decide, by decide, by decide⟩
  · injection h with h0; subst h0; subst h6
    exact ⟨by decide, by decide, by decide, by decide⟩

/-- Submatch extraction on a well-formed relation text with a non-empty
operator: the three groups are the name, the operator and the version.
-/
theorem relationSubmatch_valid (name ws1 o ws2 ver : Str)
    (hn : ∀ c ∈ name, relNameChar c = true)
    (hw1 : ∀ c ∈ ws1, goSpace c = true)
    (ho : ∀ c ∈ o, relOpChar c = true) (ho0 : o ≠ [])
    (hw2 : ∀ c ∈ ws2, goSpace c = true)
    (hv : ∀ c ∈ ver, relNameChar c = true) :
    relationSubmatch (name ++ ws1 ++ o ++ ws2 ++ ver) = (name, o, ver) := by
  obtain ⟨oc, os, rfl⟩ : ∃ c cs, o = c :: cs := by
    cases o with
    | nil => exact absurd rfl ho0
    | cons c cs => exact ⟨c, cs, rfl⟩
  have hoc : relOpChar oc = true := ho oc (by simp)
  have h1 : ∀ c cs, (ws1 ++ ((oc :: os) ++ (ws2 ++ ver))) = c :: cs →
      relNameChar c = false := by
    intro c cs hc
    cases ws1 with
    | nil =>
      simp only [List.nil_append, List.cons_append, List.cons.injEq] at hc
      exact hc.1 ▸ (opChar_props hoc).2
    | cons w wsr =>
      simp only [List.cons_append, List.cons.injEq] at hc
      exact hc.1 ▸ goSpace_not_nameChar (hw1 w (by simp))
  have h2 : ∀ c cs, ((oc :: os) ++ (ws2 ++ ver)) = c :: cs → goSpace c = false := by
    intro c cs hc
    simp only [List.cons_append, List.cons.injEq] at hc
    exact hc.1 ▸ (opChar_props hoc).1
  have h3 : ∀ c cs, (ws2 ++ ver) = c :: cs → relOpChar c = false := by
    intro c cs hc
    cases ws2 with
    | nil =>
      cases ver with
      | nil => simp at hc
      | cons v vs =>
        simp only [List.nil_append, List.cons.injEq] at hc
        exact hc.1 ▸ (nameChar_props (hv v (by simp))).1
    | cons w wsr =>
      simp only [List.cons_append, List.cons.injEq] at hc
      exact hc.1 ▸ goSpace_not_opChar (hw2 w (by simp))
  have h4 : ∀ c cs, ver = c :: cs → goSpace c = false := by
    intro c cs hc
    cases ver with
    | nil => simp at hc
    | cons v vs =>
      injection hc with hc1 _
      exact hc1 ▸ (nameChar_props (hv v (by simp))).2.1
  unfold relationSubmatch
  simp only [List.append_assoc]
  rw [takeWhile_append_left _ name _ hn h1,
    dropWhile_append_right _ name _ hn h1,
    dropWhile_append_right _ ws1 _ hw1 h2,
    takeWhile_append_left _ (oc :: os) _ ho h3,
    dropWhile_append_right _ (oc :: os) _ ho h3,
    dropWhile_append_right _ ws2 _ hw2 h4]
  simp only [Prod.mk.injEq, true_and]
  have := takeWhile_append_left (fun c => decide (c ≠ '\n')) ver []
    (fun c hc => by simp [(nameChar_props (hv c hc)).2.2])
    (fun c cs hc => absurd hc (by simp))
  simpa using this

/-- Submatch extraction on a bare name. -/
theorem relationSubmatch_name (name : Str)
    (hn : ∀ c ∈ name, relNameChar c = true) :
    relationSubmatch name = (name, [], []) := by
  unfold relationSubmatch
  have h1 := takeWhile_append_left relNameChar name []
    (fun c hc => hn c hc) (fun c cs hc => absurd hc (by simp))
  have h2 := dropWhile_append_right relNameChar name []
    (fun c hc => hn c hc) (fun c cs hc => absurd hc (by simp))
  simp only [List.append_nil] at h1 h2
  simp [h1, h2]

/-- C8: for every valid relation text — a bare name, or name, operator
(one of `<`, `>`, `=`, `<=`, `>=`) and version with arbitrary
whitespace around the operator — parsing succeeds, stringifying yields
the canonical space-free form `name ++ op ++ version` (or the bare
name), and parse followed by stringify is a fixpoint: the canonical
form parses back to the same relation, which stringifies to the same
canonical text. -/
theorem NewRelation_stringify_roundtrip
    (name ws1 o ws2 ver : Str) (s : Nat)
    (hn : ∀ c ∈ name, relNameChar c = true) (_hn0 : name ≠ [])
    (ho : parseSense o = some s) (ho0 : o ≠ [])
    (hw1 : ∀ c ∈ ws1, goSpace c = true)
    (hw2 : ∀ c ∈ ws2, goSpace c = true)
    (hv : ∀ c ∈ ver, relNameChar c = true) :
    NewRelation (name ++ ws1 ++ o ++ ws2 ++ ver) = some ⟨name, ver, s⟩
    ∧ relationString ⟨name, ver, s⟩ = name ++ o ++ ver
    ∧ NewRelation (name ++ o ++ ver) = some ⟨name, ver, s⟩
    ∧ NewRelation name = some ⟨name, [], senseAny⟩
    ∧ relationString ⟨name, [], senseAny⟩ = name := by
  obtain ⟨hochars, hsense, -, -⟩ := parseSense_inv ho
  refine ⟨?_, ?_, ?_, ?_, ?_⟩
  · unfold NewRelation
    rw [relationSubmatch_valid name ws1 o ws2 ver hn hw1 hochars ho0 hw2 hv]
    simp [ho]
  · simp [relationString, hsense]
  · unfold NewRelation
    have h := relationSubmatch_valid name [] o [] ver hn (by simp) hochars ho0
      (by simp) hv
    simp only [List.append_nil, List.nil_append] at h
    rw [h]
    simp [ho]
  · unfold NewRelation
    rw [relationSubmatch_name name hn]
    rfl
  · simp [relationString, senseString, senseStrings, senseAny]

/-- A witness for `NewRelation_stringify_roundtrip` at the concrete
text of the specification, `python >= 3.7`. -/
theorem NewRelation_stringify_roundtrip_witness :
    NewRelation ("python >= 3.7".toList)
      = some ⟨"python".toList, "3.7".toList, senseGreater + senseEqual⟩
    ∧ relationString ⟨"python".toList, "3.7".toList, senseGreater + senseEqual⟩
      = "python>=3.7".toList := by
  have h := NewRelation_stringify_roundtrip ("python".toList) [' ']
    (['>', '=']) [' '] ("3.7".toList) (senseGreater + senseEqual)
    (by decide) (by decide) (by decide) (by decide) (by decide) (by decide)
    (by decide)
  exact ⟨h.1, h.2.1⟩

/-- C7: texts whose operator part is one of the five invalid strings
`==`, `=<`, `=>`, `<>`, `><` are rejected by `NewRelation` (the
operator group captures the whole run of operator characters and
`parseSense` has no entry for it); in particular the three texts named
by the specification fail. -/
theorem NewRelation_rejects_malformed
    (name ws1 o ws2 ver : Str)
    (hn : ∀ c ∈ name, relNameChar c = true)
    (ho : o ∈ [['=', '='], ['=', '<'], ['=', '>'], ['<', '>'], ['>', '<']])
    (hw1 : ∀ c ∈ ws1, goSpace c = true)
    (hw2 : ∀ c ∈ ws2, goSpace c = true)
    (hv : ∀ c ∈ ver, relNameChar c = true) :
    NewRelation (name ++ ws1 ++ o ++ ws2 ++ ver) = none
    ∧ NewRelation ("python == 3.5".toList) = none
    ∧ NewRelation ("python <> 3.5".toList) = none
    ∧ NewRelation ("python => 3.5".toList) = none := by
  refine ⟨?_, by decide, by decide, by decide⟩
  have hparse : parseSense o = none := by
    fin_cases ho <;> decide
  have hochars : ∀ c ∈ o, relOpChar c = true := by
    fin_cases ho <;> decide
  have ho0 : o ≠ [] := by
    fin_cases ho <;> decide
  unfold NewRelation
  rw [relationSubmatch_valid name ws1 o ws2 ver hn hw1 hochars ho0 hw2 hv]
  simp [hparse]

/-- A witness for `NewRelation_rejects_malformed` at the concrete text
`python == 3.5` decomposed into its five parts. -/
theorem NewRelation_rejects_malformed_witness :
    NewRelation ("python".toList ++ [' '] ++ ['=', '='] ++ [' '] ++ "3.5".toList)
      = none := by
  exact (NewRelation_rejects_malformed ("python".toList) [' '] (['=', '='])
    [' '] ("3.5".toList) (by decide) (by simp) (by decide) (by decide)
    (by decide)).1

/-! ### C1: the self-provides rule of `ParsePackages` -/

/-- C1 counterexample: the claim promises the self-entry's version
equals FullVersion; with name `t`, version `1`, release `A` the
assembler stores version `1` while FullVersion is `1-A`, and two
caller-supplied Provides naming the package both survive, so the
"exactly one" part also fails for duplicated input. -/
theorem selfProvides_counterexample :
    (newRPM { name := ['t'], version := ['1'], release := ['A'] }).parsedProvides
      = [⟨['t'], ['1'], senseEqual⟩]
    ∧ fullVersion (newRPM { name := ['t'], version := ['1'], release := ['A'] })
      = ['1', '-', 'A']
    ∧ (['1'] : Str) ≠ ['1', '-', 'A']
    ∧ (fixProvides ['t'] ['1'] [⟨['t'], [], 0⟩, ⟨['t'], [], 0⟩]).countP
        (fun p => p.name = ['t']) = 2 := by decide

/-- C1 amended: after construction, every Provides entry naming the
package carries the bare `Version` (not FullVersion) and sense Equal;
at least one such entry exists; when the caller names the package at
most once there is exactly one; a caller entry naming the package is
overwritten in place, otherwise the synthetic entry is appended at the
tail. -/
theorem parsePackages_selfProvides (n v : Str) (l : List Pkg) (m : RPMMetaData) :
    (newRPM m).parsedProvides = fixProvides m.name m.version m.provides
    ∧ (∀ p ∈ fixProvides n v l, p.name = n → p = ⟨n, v, senseEqual⟩)
    ∧ (∃ p ∈ fixProvides n v l, p.name = n)
    ∧ (l.countP (fun p => p.name = n) ≤ 1 →
        (fixProvides n v l).countP (fun p => p.name = n) = 1)
    ∧ ((∀ p ∈ l, p.name ≠ n) → fixProvides n v l = l ++ [⟨n, v, senseEqual⟩])
    ∧ ((∃ p ∈ l, p.name = n) →
        fixProvides n v l
          = l.map (fun p => if p.name = n then ⟨n, v, senseEqual⟩ else p)) := by
  have hmapname : ∀ p : Pkg,
      (if p.name = n then ({ p with version := v, sense := senseEqual } : Pkg)
        else p).name = p.name := by
    intro p
    by_cases hp : p.name = n <;> simp [hp]
  refine ⟨rfl, ?_, ?_, ?_, ?_, ?_⟩
  · intro p hp hpn
    unfold fixProvides at hp
    by_cases hfound : l.any (fun p => p.name = n)
    · simp only [hfound, if_true, List.mem_map] at hp
      obtain ⟨q, hq, rfl⟩ := hp
      by_cases hqn : q.name = n
      · simp [hqn]
      · simp only [hqn, ite_false] at hpn
    · simp only [hfound, if_false, Bool.false_eq_true, List.mem_append,
        List.mem_map, List.mem_singleton] at hp
      rcases hp with ⟨q, hq, rfl⟩ | rfl
      · by_cases hqn : q.name = n
        · exact absurd (List.any_eq_true.2 ⟨q, hq, by simp [hqn]⟩) hfound
        · simp only [hqn, ite_false] at hpn
      · rfl
  · unfold fixProvides
    by_cases hfound : l.any (fun p => p.name = n)
    · obtain ⟨q, hq, hqn⟩ := List.any_eq_true.1 hfound
      simp only [decide_eq_true_eq] at hqn
      refine ⟨_, by simp [hfound, List.mem_map]; exact ⟨q, hq, rfl⟩, ?_⟩
      simp [hqn]
    · exact ⟨⟨n, v, senseEqual⟩, by simp [hfound], rfl⟩
  · intro hle
    unfold fixProvides
    by_cases hfound : l.any (fun p => p.name = n)
    · simp only [hfound, if_true]
      have hcnt : (l.map (fun p =>
          if p.name = n then ({ p with version := v, sense := senseEqual } : Pkg)
          else p)).countP (fun p => p.name = n)
          = l.countP (fun p => p.name = n) := by
        rw [List.countP_map]
        refine List.countP_congr ?_
        intro p _
        simp [Function.comp, hmapname p]
      rw [hcnt]
      obtain ⟨q, hq, hqn⟩ := List.any_eq_true.1 hfound
      have hpos : 0 < l.countP (fun p => p.name = n) :=
        List.countP_pos_iff.2 ⟨q, hq, hqn⟩
      omega
    · simp only [hfound, if_false, Bool.false_eq_true, List.countP_append]
      have hz : (l.map (fun p =>
          if p.name = n then ({ p with version := v, sense := senseEqual } : Pkg)
          else p)).countP (fun p => p.name = n) = 0 := by
        rw [List.countP_map]
        rw [List.countP_eq_zero]
        intro p hp
        have hpn : ¬p.name = n := by
          intro hcon
          exact absurd (List.any_eq_true.2 ⟨p, hp, by simp [hcon]⟩) hfound
        simp [Function.comp, hmapname p, hpn]
      rw [hz]
      simp
  · intro hnone
    have hfound : l.any (fun p => p.name = n) = false := by
      rw [List.any_eq_false]
      intro p hp
      simp [hnone p hp]
    unfold fixProvides
    simp only [hfound, Bool.false_eq_true, if_false]
    congr 1
    have hmap : List.map (fun p =>
        if p.name = n then ({ p with version := v, sense := senseEqual } : Pkg)
        else p) l = List.map id l :=
      List.map_congr_left (fun p hp => by simp [hnone p hp])
    rw [hmap, List.map_id]
  · intro hfound'
    obtain ⟨q, hq, hqn⟩ := hfound'
    have hfound : l.any (fun p => p.name = n) = true :=
      List.any_eq_true.2 ⟨q, hq, by simp [hqn]⟩
    unfold fixProvides
    simp only [hfound, if_true]
    refine List.map_congr_left ?_
    intro p _
    by_cases hpn : p.name = n <;> simp [hpn]

/-- A witness for `parsePackages_selfProvides`: one caller entry naming
the package yields exactly one matching entry; a caller entry with a
different name keeps its place and the synthetic entry lands at the
tail. -/
theorem parsePackages_selfProvides_witness :
    (fixProvides ['a'] ['1'] [⟨['a'], ['0'], 0⟩]).countP
        (fun p => p.name = ['a']) = 1
    ∧ fixProvides ['a'] ['1'] [⟨['b'], ['0'], 0⟩]
      = [⟨['b'], ['0'], 0⟩, ⟨['a'], ['1'], senseEqual⟩] := by
  constructor
  · exact (parsePackages_selfProvides ['a'] ['1'] [⟨['a'], ['0'], 0⟩]
      {}).2.2.2.1 (by decide)
  · exact (parsePackages_selfProvides ['a'] ['1'] [⟨['b'], ['0'], 0⟩]
      {}).2.2.2.2.1 (by decide)

/-! ### C5/C6: header framing and alignment -/

/-- A big-endian int32 occupies four bytes. -/
theorem beInt32_length (x : Int) : (beInt32 x).length = 4 := rfl

/-- An index record occupies sixteen bytes. -/
theorem indexRecord_length (tag rpmtype : Nat) (o : Int) (count : Nat) :
    (indexRecord tag rpmtype o count).length = 16 := rfl

/-- The eigen trailer data occupies sixteen bytes. -/
theorem eigenData_length (h n : Nat) : (eigenData h n).length = 16 := rfl

/-- The layout lists one offset pair per entry. -/
theorem dataLayout_length (es : List IndexEntry) :
    ∀ len, (dataLayout len es).length = es.length := by
  induction es with
  | nil => intro len; rfl
  | cons e rest ih =>
    intro len
    simp only [dataLayout, List.length_cons, ih]

/-- Sorting the entries preserves their number. -/
theorem sortedEntries_length (entries : Index) :
    (sortedEntries entries).length = entries.length :=
  (List.perm_insertionSort tagLe entries).length_eq

/-- `sortedEs` preserves the number of entries. -/
theorem sortedEs_length (entries : Index) :
    (sortedEs entries).length = entries.length := by
  rw [sortedEs, List.length_map, sortedEntries_length]

/-- Length of a `flatMap` whose pieces have a fixed length. -/
theorem flatMap_const_length {α : Type} (f : α → List Nat) (k : Nat)
    (hf : ∀ a, (f a).length = k) :
    ∀ l : List α, (l.flatMap f).length = k * l.length := by
  intro l
  induction l with
  | nil => simp
  | cons a rest ih =>
    simp only [List.flatMap_cons, List.length_append, ih, hf a, List.length_cons]
    ring

/-- The index-record block lists sixteen bytes per entry. -/
theorem recordsBytes_length (entries : Index) :
    (recordsBytes entries).length = 16 * entries.length := by
  have h1 := flatMap_const_length
    (fun pe : (Nat × IndexEntry) × (Nat × Nat) =>
      indexRecord pe.1.1 pe.1.2.rpmtype (pe.2.2 : Int) pe.1.2.count)
    16 (fun pe => rfl)
    ((sortedEntries entries).zip (dataLayout 0 (sortedEs entries)))
  rw [recordsBytes, h1, List.length_zip, sortedEntries_length,
    dataLayout_length, sortedEs_length, Nat.min_self]

/-- Decoding inverts the big-endian encoding below `2 ^ 32`. -/
theorem decodeBe32_beBytes32 (m : Nat) (hm : m < 2 ^ 32) :
    decodeBe32 (beBytes32 m) = m := by
  simp only [beBytes32, decodeBe32]
  omega

/-- Decoding inverts `beInt32` on a natural number below `2 ^ 32`. -/
theorem decodeBe32_beInt32 (m : Nat) (hm : m < 2 ^ 32) :
    decodeBe32 (beInt32 m) = m := by
  have htu : toU32 m = m := by
    unfold toU32
    omega
  rw [beInt32, htu, decodeBe32_beBytes32 m hm]

/-- C5: for every index kind and entry set, the emitted header starts
with the eight magic bytes; the declared count decodes to one more than
the number of entries; the declared size decodes to the data-region
length (trailer included, as witnessed by the region being the final
`D` bytes of the output and ending in the 16 trailer bytes); the
region-trailer index record carries the header kind, BINARY type,
count 16 and offset `D − 16`; and the last sixteen bytes are the same
record with offset `−16 × (entries + 1)`. -/
theorem headerBytes_framing (h : Nat) (entries : Index) (n D : Nat)
    (hn : n = entries.length)
    (hD : D = (regionBytes h entries).length)
    (hnsmall : n + 1 < 2 ^ 31) (hDsmall : D < 2 ^ 31) :
    (headerBytes h entries).take 8 = headerMagic
    ∧ decodeBe32 (((headerBytes h entries).drop 8).take 4) = n + 1
    ∧ decodeBe32 (((headerBytes h entries).drop 12).take 4) = D
    ∧ (headerBytes h entries).length = 32 + 16 * n + D
    ∧ (headerBytes h entries).drop (32 + 16 * n) = regionBytes h entries
    ∧ regionBytes h entries = dataBytes 0 (sortedEs entries) ++ eigenData h n
    ∧ ((headerBytes h entries).drop 16).take 16
        = beInt32 h ++ beInt32 typeBinary ++ beInt32 ((D : Int) - 16) ++ beInt32 16
    ∧ (headerBytes h entries).drop ((headerBytes h entries).length - 16)
        = beInt32 h ++ beInt32 typeBinary
            ++ beInt32 (-(16 * ((n : Int) + 1))) ++ beInt32 16 := by
  subst hn hD
  set n := entries.length with hn
  set D := (regionBytes h entries).length with hD
  have hDge : 16 ≤ D := by
    rw [hD, regionBytes]
    simp only [List.length_append, eigenData_length]
    omega
  have hs0 : headerBytes h entries
      = headerMagic ++ (beInt32 ((n : Int) + 1) ++ (beInt32 (D : Int)
        ++ (indexRecord h typeBinary ((D : Int) - 16) 16
          ++ (recordsBytes entries ++ regionBytes h entries)))) := by
    simp [headerBytes, List.append_assoc]
  have hs1 : headerBytes h entries
      = (headerMagic ++ beInt32 ((n : Int) + 1)) ++ (beInt32 (D : Int)
        ++ (indexRecord h typeBinary ((D : Int) - 16) 16
          ++ (recordsBytes entries ++ regionBytes h entries))) := by
    simp [headerBytes, List.append_assoc]
  have hs2 : headerBytes h entries
      = (headerMagic ++ beInt32 ((n : Int) + 1) ++ beInt32 (D : Int))
        ++ (indexRecord h typeBinary ((D : Int) - 16) 16
          ++ (recordsBytes entries ++ regionBytes h entries)) := by
    simp [headerBytes, List.append_assoc]
  have hs3 : headerBytes h entries
      = (headerMagic ++ beInt32 ((n : Int) + 1) ++ beInt32 (D : Int)
          ++ indexRecord h typeBinary ((D : Int) - 16) 16
          ++ recordsBytes entries) ++ regionBytes h entries := by
    simp [headerBytes, List.append_assoc]
  have hmaglen : headerMagic.length = 8 := rfl
  have hlen12 : (headerMagic ++ beInt32 ((n : Int) + 1)).length = 12 := by
    simp only [List.length_append, beInt32_length, hmaglen]
  have hlen16 : (headerMagic ++ beInt32 ((n : Int) + 1) ++ beInt32 (D : Int)).length
      = 16 := by
    simp only [List.length_append, beInt32_length, hmaglen]
  have hlenpre : (headerMagic ++ beInt32 ((n : Int) + 1) ++ beInt32 (D : Int)
      ++ indexRecord h typeBinary ((D : Int) - 16) 16
      ++ recordsBytes entries).length = 32 + 16 * n := by
    simp only [List.length_append, beInt32_length, indexRecord_length,
      recordsBytes_length, hmaglen]
  have hlen : (headerBytes h entries).length = 32 + 16 * n + D := by
    rw [hs3, List.length_append, hlenpre]
  have hregion : (headerBytes h entries).drop (32 + 16 * n) = regionBytes h entries := by
    rw [hs3]
    exact List.drop_left' hlenpre
  refine ⟨?_, ?_, ?_, hlen, hregion, ?_, ?_, ?_⟩
  · rw [hs0]
    exact List.take_left' hmaglen
  · rw [hs0, List.drop_left' hmaglen, List.take_left' (beInt32_length _)]
    have htu : toU32 ((n : Int) + 1) = n + 1 := by
      unfold toU32
      omega
    rw [beInt32, htu, decodeBe32_beBytes32 _ (by omega)]
  · rw [hs1, List.drop_left' hlen12, List.take_left' (beInt32_length _),
      decodeBe32_beInt32 _ (by omega)]
  · rfl
  · rw [hs2, List.drop_left' hlen16, List.take_left' (indexRecord_length _ _ _ _)]
    rfl
  · have hdrop : (headerBytes h entries).length - 16 = 32 + 16 * n + (D - 16) := by
      omega
    rw [hdrop, ← List.drop_drop, hregion, regionBytes]
    have hdb : (dataBytes 0 (sortedEs entries)).length = D - 16 := by
      rw [hD, regionBytes]
      simp only [List.length_append, eigenData_length]
      omega
    rw [List.drop_left' hdb]
    rfl

/-- A witness for `headerBytes_framing` on a one-entry immutable
header. -/
theorem headerBytes_framing_witness :
    (headerBytes immutable [(100, stringEntry ['C'])]).take 8 = headerMagic
    ∧ decodeBe32 (((headerBytes immutable [(100, stringEntry ['C'])]).drop 12).take 4)
      = 18 := by
  have h := headerBytes_framing immutable [(100, stringEntry ['C'])] 1 18
    (by decide) (by decide) (by decide) (by decide)
  exact ⟨h.1, h.2.2.1⟩

/-- Positional access into a `flatMap` with fixed-length pieces. -/
theorem flatMap_const_drop_take {α : Type} (f : α → List Nat) (k : Nat)
    (hf : ∀ a, (f a).length = k) :
    ∀ (l : List α) (i : Nat) (d : α), i < l.length →
      ((l.flatMap f).drop (k * i)).take k = f (l.getD i d) := by
  intro l
  induction l with
  | nil => intro i d hi; simp at hi
  | cons a rest ih =>
    intro i d hi
    cases i with
    | zero =>
      simp only [Nat.mul_zero, List.drop_zero, List.flatMap_cons, List.getD_cons_zero]
      rw [List.take_append_of_le_length (by rw [hf a]), List.take_of_length_le (by rw [hf a])]
    | succ j =>
      have hk : k * (j + 1) = k + k * j := by ring
      simp only [List.flatMap_cons, List.getD_cons_succ, hk]
      rw [← List.drop_drop, List.drop_left' (hf a)]
      exact ih j d (by simpa using hi)

/-- The layout invariant of `dataLayout`: each recorded offset is the
current position plus the inserted padding; int16 offsets are even,
int32 offsets are multiples of four, and non-integer entries get no
padding at all. -/
theorem dataLayout_spec (es : List IndexEntry) :
    ∀ len i, i < es.length →
      ((dataLayout len es).getD i (0, 0)).2
          = ((dataLayout len es).getD i (0, 0)).1
            + (padBytes (es.getD i ⟨0, 0, []⟩).rpmtype
                ((dataLayout len es).getD i (0, 0)).1).length
      ∧ ((es.getD i ⟨0, 0, []⟩).rpmtype = typeInt16 →
          ((dataLayout len es).getD i (0, 0)).2 % 2 = 0)
      ∧ ((es.getD i ⟨0, 0, []⟩).rpmtype = typeInt32 →
          ((dataLayout len es).getD i (0, 0)).2 % 4 = 0)
      ∧ ((es.getD i ⟨0, 0, []⟩).rpmtype ≠ typeInt16 →
          (es.getD i ⟨0, 0, []⟩).rpmtype ≠ typeInt32 →
          padBytes (es.getD i ⟨0, 0, []⟩).rpmtype
            ((dataLayout len es).getD i (0, 0)).1 = []) := by
  induction es with
  | nil => intro len i hi; simp at hi
  | cons e rest ih =>
    intro len i hi
    cases i with
    | zero =>
      simp only [dataLayout, List.getD_cons_zero]
      refine ⟨by trivial, ?_, ?_, ?_⟩
      · intro h16
        rw [h16]
        simp only [padBytes, boundaries, typeInt16, typeInt32]
        norm_num
        split_ifs with hmod <;>
          first
            | (simp only [List.length_replicate]; omega)
            | (simp only [List.length_nil]; omega)
      · intro h32
        rw [h32]
        simp only [padBytes, boundaries, typeInt16, typeInt32]
        norm_num
        split_ifs with hmod <;>
          first
            | (simp only [List.length_replicate]; omega)
            | (simp only [List.length_nil]; omega)
      · intro hne16 hne32
        simp [padBytes, boundaries, hne16, hne32]
    | succ j =>
      simp only [dataLayout, List.getD_cons_succ]
      exact ih _ j (by simpa using hi)

/-- `getD` distributes over `zip` within bounds. -/
theorem getD_zip {α β : Type} (a : List α) (b : List β) (i : Nat)
    (d1 : α) (d2 : β) (h1 : i < a.length) (h2 : i < b.length) :
    (a.zip b).getD i (d1, d2) = (a.getD i d1, b.getD i d2) := by
  have h3 : i < (a.zip b).length := by
    rw [List.length_zip]
    omega
  rw [List.getD_eq_getElem _ _ h3, List.getD_eq_getElem _ _ h1,
    List.getD_eq_getElem _ _ h2]
  exact List.getElem_zip

/-- C6: in every header emitted by `Bytes`, the i-th emitted index
record carries the offset assigned by the layout; that offset is a
multiple of 2 for int16 entries and of 4 for int32 entries (padding
was inserted as needed), while entries of any other type are written
at the current offset with no preceding pad bytes. -/
theorem headerBytes_entry_alignment (h : Nat) (entries : Index) (i : Nat)
    (hi : i < entries.length) :
    ((headerBytes h entries).drop (32 + 16 * i)).take 16
      = indexRecord ((sortedEntries entries).getD i (0, ⟨0, 0, []⟩)).1
          ((sortedEs entries).getD i ⟨0, 0, []⟩).rpmtype
          ((((dataLayout 0 (sortedEs entries)).getD i (0, 0)).2 : Nat) : Int)
          ((sortedEs entries).getD i ⟨0, 0, []⟩).count
    ∧ ((dataLayout 0 (sortedEs entries)).getD i (0, 0)).2
        = ((dataLayout 0 (sortedEs entries)).getD i (0, 0)).1
          + (padBytes ((sortedEs entries).getD i ⟨0, 0, []⟩).rpmtype
              ((dataLayout 0 (sortedEs entries)).getD i (0, 0)).1).length
    ∧ (((sortedEs entries).getD i ⟨0, 0, []⟩).rpmtype = typeInt16 →
        ((dataLayout 0 (sortedEs entries)).getD i (0, 0)).2 % 2 = 0)
    ∧ (((sortedEs entries).getD i ⟨0, 0, []⟩).rpmtype = typeInt32 →
        ((dataLayout 0 (sortedEs entries)).getD i (0, 0)).2 % 4 = 0)
    ∧ (((sortedEs entries).getD i ⟨0, 0, []⟩).rpmtype ≠ typeInt16 →
        ((sortedEs entries).getD i ⟨0, 0, []⟩).rpmtype ≠ typeInt32 →
        padBytes ((sortedEs entries).getD i ⟨0, 0, []⟩).rpmtype
          ((dataLayout 0 (sortedEs entries)).getD i (0, 0)).1 = []) := by
  have hes : i < (sortedEs entries).length := by rw [sortedEs_length]; exact hi
  have hso : i < (sortedEntries entries).length := by
    rw [sortedEntries_length]; exact hi
  have hlay : i < (dataLayout 0 (sortedEs entries)).length := by
    rw [dataLayout_length]; exact hes
  obtain ⟨hoff, h16, h32, hnone⟩ := dataLayout_spec (sortedEs entries) 0 i hes
  refine ⟨?_, hoff, h16, h32, hnone⟩
  have hs2 : headerBytes h entries
      = (headerMagic ++ beInt32 ((entries.length : Int) + 1)
          ++ beInt32 ((regionBytes h entries).length : Int)
          ++ indexRecord h typeBinary (((regionBytes h entries).length : Int) - 16) 16)
        ++ (recordsBytes entries ++ regionBytes h entries) := by
    simp [headerBytes, List.append_assoc]
  have hlen32 : (headerMagic ++ beInt32 ((entries.length : Int) + 1)
      ++ beInt32 ((regionBytes h entries).length : Int)
      ++ indexRecord h typeBinary (((regionBytes h entries).length : Int) - 16) 16).length
      = 32 := by
    simp only [List.length_append, beInt32_length, indexRecord_length]
    rfl
  have hadd : 32 + 16 * i = (headerMagic ++ beInt32 ((entries.length : Int) + 1)
      ++ beInt32 ((regionBytes h entries).length : Int)
      ++ indexRecord h typeBinary (((regionBytes h entries).length : Int) - 16) 16).length
      + 16 * i := by
    rw [hlen32]
  rw [hs2, hadd, ← List.drop_drop, List.drop_left]
  have hRlen : 16 * i ≤ (recordsBytes entries).length := by
    rw [recordsBytes_length]
    omega
  rw [List.drop_append_of_le_length hRlen]
  have hRdroplen : 16 ≤ ((recordsBytes entries).drop (16 * i)).length := by
    rw [List.length_drop, recordsBytes_length]
    omega
  rw [List.take_append_of_le_length hRdroplen]
  have hflat := flatMap_const_drop_take
    (fun pe : (Nat × IndexEntry) × (Nat × Nat) =>
      indexRecord pe.1.1 pe.1.2.rpmtype (pe.2.2 : Int) pe.1.2.count)
    16 (fun pe => rfl)
    ((sortedEntries entries).zip (dataLayout 0 (sortedEs entries)))
    i ((0, ⟨0, 0, []⟩), (0, 0)) (by rw [List.length_zip]; omega)
  rw [recordsBytes, hflat, getD_zip _ _ _ _ _ hso hlay]
  have hmap : (sortedEs entries).getD i ⟨0, 0, []⟩
      = ((sortedEntries entries).getD i (0, ⟨0, 0, []⟩)).2 := by
    have hes' : i < ((sortedEntries entries).map Prod.snd).length := by
      rwa [sortedEs] at hes
    rw [sortedEs, List.getD_eq_getElem _ _ hes', List.getD_eq_getElem _ _ hso]
    simp
  rw [hmap]

/-- A witness for `headerBytes_entry_alignment` on a two-entry header
holding a string and an int32 array: the integer entry (tag 1009,
emitted second) is padded to offset 4. -/
theorem headerBytes_entry_alignment_witness :
    ((headerBytes immutable
        [(1009, int32Entry [7]), (100, stringEntry ['C'])]).drop (32 + 16 * 1)).take 16
      = indexRecord 1009 typeInt32 (4 : Int) 1 := by
  have h := headerBytes_entry_alignment immutable
    [(1009, int32Entry [7]), (100, stringEntry ['C'])] 1 (by decide)
  have h1 := h.1
  rw [show ((sortedEntries [(1009, int32Entry [7]), (100, stringEntry ['C'])]).getD 1
      (0, ⟨0, 0, []⟩)).1 = 1009 from by decide] at h1
  rw [show ((sortedEs [(1009, int32Entry [7]), (100, stringEntry ['C'])]).getD 1
      ⟨0, 0, []⟩).rpmtype = typeInt32 from by decide] at h1
  rw [show ((sortedEs [(1009, int32Entry [7]), (100, stringEntry ['C'])]).getD 1
      ⟨0, 0, []⟩).count = 1 from by decide] at h1
  rw [show (((dataLayout 0 (sortedEs [(1009, int32Entry [7]), (100, stringEntry ['C'])])).getD 1
      (0, 0)).2 : Nat) = 4 from by decide] at h1
  exact h1

/-! ### C9: files are emitted in ascending full-path order -/

/-- `path.Split` recomposes: directory plus basename is the path. -/
theorem splitPath_concat (s : Str) : (splitPath s).1 ++ (splitPath s).2 = s := by
  unfold splitPath
  rw [← List.reverse_append, List.takeWhile_append_dropWhile, List.reverse_reverse]

/-- The interner returns the stored list unchanged or extended by the
requested directory, an in-range index, and the directory at that
index. -/
theorem diGet_spec (l : List Str) (d : Str) :
    ((diGet l d).2 = l ∨ (diGet l d).2 = l ++ [d])
    ∧ (diGet l d).1 < (diGet l d).2.length
    ∧ (diGet l d).2.getD (diGet l d).1 [] = d
    ∧ l.length ≤ (diGet l d).2.length := by
  induction l with
  | nil => exact ⟨Or.inr rfl, by simp [diGet], by simp [diGet], by simp [diGet]⟩
  | cons x xs ih =>
    by_cases hx : x = d
    · refine ⟨Or.inl ?_, ?_, ?_, ?_⟩ <;> simp [diGet, hx]
    · obtain ⟨hor, hlt, hget, hle⟩ := ih
      refine ⟨?_, ?_, ?_, ?_⟩
      · rcases hor with h | h
        · exact Or.inl (by simp [diGet, hx, h])
        · exact Or.inr (by simp [diGet, hx, h])
      · simpa [diGet, hx, Nat.succ_lt_succ_iff] using hlt
      · simpa [diGet, hx] using hget
      · simpa [diGet, hx, Nat.succ_le_succ_iff] using hle

/-- The directory-index array of a state after `writeFile`. -/
theorem writeFile_dirindexes (sha : List Nat → Str) (r : RPMState) (f : RPMFile) :
    (writeFile sha r f).dirindexes
      = r.dirindexes ++ [(diGet r.di (splitPath f.name).1).1] := rfl

/-- The basenames array of a state after `writeFile`. -/
theorem writeFile_basenames (sha : List Nat → Str) (r : RPMState) (f : RPMFile) :
    (writeFile sha r f).basenames = r.basenames ++ [(splitPath f.name).2] := rfl

/-- The directory list of a state after `writeFile`. -/
theorem writeFile_di (sha : List Nat → Str) (r : RPMState) (f : RPMFile) :
    (writeFile sha r f).di = (diGet r.di (splitPath f.name).1).2 := rfl

/-- The owner and group arrays after `writeFile`: the source appends
the file's group to `fileowners` and its owner to `filegroups`. -/
theorem writeFile_owners (sha : List Nat → Str) (r : RPMState) (f : RPMFile) :
    (writeFile sha r f).fileowners = r.fileowners ++ [f.group]
    ∧ (writeFile sha r f).filegroups = r.filegroups ++ [f.owner] := ⟨rfl, rfl⟩

/-- The cpio record names after `writeFile`: the file's name is handed
to the cpio writer last. -/
theorem writeFile_cpio_names (sha : List Nat → Str) (r : RPMState) (f : RPMFile) :
    (writeFile sha r f).cpio.map CpioRecord.name
      = r.cpio.map CpioRecord.name ++ [f.name] := by
  simp [writeFile]

/-- `getD` of an element known to be in range is a member. -/
theorem getD_mem_of_lt {α : Type} (l : List α) (i : Nat) (d : α)
    (h : i < l.length) : l.getD i d ∈ l := by
  rw [List.getD_eq_getElem _ _ h]
  exact List.getElem_mem h

/-- One `writeFile` step preserves the array invariants and appends the
file's full path to the emitted paths. -/
theorem writeFile_step (sha : List Nat → Str) (r : RPMState) (f : RPMFile)
    (hlen : r.dirindexes.length = r.basenames.length)
    (hbound : ∀ j ∈ r.dirindexes, j < r.di.length) :
    (writeFile sha r f).dirindexes.length = (writeFile sha r f).basenames.length
    ∧ (∀ j ∈ (writeFile sha r f).dirindexes, j < (writeFile sha r f).di.length)
    ∧ emittedPaths (writeFile sha r f) = emittedPaths r ++ [f.name] := by
  obtain ⟨hor, hlt, hget, hle⟩ := diGet_spec r.di (splitPath f.name).1
  have hdiget : ∀ j, j < r.di.length →
      (diGet r.di (splitPath f.name).1).2.getD j [] = r.di.getD j [] := by
    intro j hj
    rcases hor with h | h
    · rw [h]
    · rw [h, List.getD_append _ _ _ _ hj]
  refine ⟨?_, ?_, ?_⟩
  · rw [writeFile_dirindexes, writeFile_basenames]
    simp [hlen]
  · intro j hj
    rw [writeFile_dirindexes] at hj
    rw [writeFile_di]
    rcases List.mem_append.1 hj with h | h
    · calc j < r.di.length := hbound j h
        _ ≤ _ := hle
    · rw [List.mem_singleton] at h
      exact h ▸ hlt
  · unfold emittedPaths
    rw [writeFile_dirindexes, writeFile_basenames, writeFile_di]
    rw [List.length_append, List.length_singleton, List.range_succ, List.map_append]
    congr 1
    · refine List.map_congr_left ?_
      intro k hk
      rw [List.mem_range] at hk
      have hk2 : k < r.dirindexes.length := by omega
      rw [List.getD_append _ _ _ _ hk2, List.getD_append _ _ _ _ hk]
      rw [hdiget _ (hbound _ (getD_mem_of_lt _ _ _ hk2))]
    · rw [List.map_singleton]
      have hn : r.basenames.length = r.dirindexes.length := hlen.symm
      rw [hn, List.getD_append_right _ _ _ _ (le_refl _), Nat.sub_self]
      rw [← hn, List.getD_append_right _ _ _ _ (le_refl _), Nat.sub_self]
      simp only [List.getD_cons_zero]
      rw [hget, splitPath_concat]

/-- Folding `writeFile` over a file list appends the file names, in
order, to both the emitted paths and the cpio record names. -/
theorem foldl_writeFile_emitted (sha : List Nat → Str) :
    ∀ (fs : List RPMFile) (r : RPMState),
      r.dirindexes.length = r.basenames.length →
      (∀ j ∈ r.dirindexes, j < r.di.length) →
      emittedPaths (fs.foldl (writeFile sha) r)
          = emittedPaths r ++ fs.map RPMFile.name
      ∧ (fs.foldl (writeFile sha) r).cpio.map CpioRecord.name
          = r.cpio.map CpioRecord.name ++ fs.map RPMFile.name := by
  intro fs
  induction fs with
  | nil => intro r _ _; simp
  | cons f rest ih =>
    intro r hlen hbound
    obtain ⟨hlen', hbound', hemit⟩ := writeFile_step sha r f hlen hbound
    obtain ⟨ihemit, ihcpio⟩ := ih (writeFile sha r f) hlen' hbound'
    constructor
    · rw [List.foldl_cons, ihemit, hemit]
      simp
    · rw [List.foldl_cons, ihcpio, writeFile_cpio_names]
      simp

/-- C9: finalise emits the files in ascending full-path order — the
emitted header arrays denote the sorted file names, consecutive full
paths are pairwise `≤` lexicographically, and the cpio records carry
the same names in the same order as the header file arrays. -/
theorem write_file_order (pb : List CpioRecord → List Nat) (sha : List Nat → Str)
    (r : RPMState)
    (hb : r.basenames = []) (hd : r.dirindexes = []) (hc : r.cpio = [])
    (hclosed : r.closed = false) :
    ∃ r1 out, write pb sha r = Except.ok (r1, out)
    ∧ emittedPaths r1 = (sortFiles r.files).map RPMFile.name
    ∧ r1.cpio.map CpioRecord.name = emittedPaths r1
    ∧ List.Pairwise (fun a b : Str => a ≤ b) (emittedPaths r1) := by
  have h0 : emittedPaths r = [] := by
    unfold emittedPaths
    rw [hb]
    rfl
  have hfold := foldl_writeFile_emitted sha (sortFiles r.files) r
    (by simp [hb, hd]) (by rw [hd]; intro j hj; simp at hj)
  have hemit : emittedPaths ((sortFiles r.files).foldl (writeFile sha) r)
      = (sortFiles r.files).map RPMFile.name := by
    rw [hfold.1, h0, List.nil_append]
  have hcpio : ((sortFiles r.files).foldl (writeFile sha) r).cpio.map CpioRecord.name
      = (sortFiles r.files).map RPMFile.name := by
    rw [hfold.2, hc]
    rfl
  have hsorted : List.Pairwise fileLe (sortFiles r.files) :=
    List.sorted_insertionSort fileLe r.files
  have hw : ∃ out, write pb sha r
      = Except.ok ((sortFiles r.files).foldl (writeFile sha) r, out) := by
    unfold write
    rw [hclosed]
    exact ⟨_, rfl⟩
  obtain ⟨out, hw⟩ := hw
  exact ⟨_, out, hw, hemit, by rw [hcpio, hemit],
    by rw [hemit]; exact (List.pairwise_map).2 hsorted⟩

/-- A witness for `write_file_order`: two files added in reverse order
come out ascending. -/
theorem write_file_order_witness :
    ∃ r1 out,
      write pbNull shaNull
          (addFile (addFile (newRPM { name := ['t'], version := ['1'] })
            { name := "/b/y".toList, body := ['Y'] })
            { name := "/a/x".toList, body := ['X'] })
        = Except.ok (r1, out)
      ∧ emittedPaths r1
          = (sortFiles (addFile (addFile (newRPM { name := ['t'], version := ['1'] })
              { name := "/b/y".toList, body := ['Y'] })
              { name := "/a/x".toList, body := ['X'] }).files).map RPMFile.name
      ∧ r1.cpio.map CpioRecord.name = emittedPaths r1
      ∧ List.Pairwise (fun a b : Str => a ≤ b) (emittedPaths r1) :=
  write_file_order pbNull shaNull _ (by decide) (by decide) (by decide) (by decide)

/-! ### C3: the owner/group arrays -/

/-- C3 (code bug): `writeFile` appends the file's group to
`fileowners` and its owner to `filegroups` — swapped relative to the
array names, the tag semantics, and the repository's own
`TestFileOwner`, and no defaulting to `root` exists anywhere.  On the
test's own input the assembler yields fileowners[0] = "testGroup" and
filegroups[0] = "testUser". -/
theorem fileowners_swapped :
    (∀ (sha : List Nat → Str) (r : RPMState) (f : RPMFile),
      (writeFile sha r f).fileowners = r.fileowners ++ [f.group]
      ∧ (writeFile sha r f).filegroups = r.filegroups ++ [f.owner])
    ∧ (write pbNull shaNull testOwnerRPM).map
        (fun z => (z.1.fileowners, z.1.filegroups))
      = Except.ok (["testGroup".toList], ["testUser".toList])
    ∧ testOwnerFile.owner = "testUser".toList
    ∧ testOwnerFile.group = "testGroup".toList
    ∧ ("testGroup".toList : Str) ≠ "testUser".toList :=
  ⟨fun sha r f => ⟨rfl, rfl⟩, rfl, rfl, rfl, by decide⟩

/-! ### C4: the closed flag is never set -/

/-- C4 (code bug): `Write` checks the closed flag but no code path
ever assigns it, so after a first successful write the flag is still
false and a second write on the same assembler does not fail with
`ErrWriteAfterClose`: it runs the whole emission again, duplicating
the file arrays (basenames grows from 1 to 2 entries for a one-file
rpm) and writing a fresh lead to the sink. -/
theorem write_closed_never_set :
    (write pbNull shaNull (addFile (newRPM { name := ['t'], version := ['1'] })
        { name := "/a/x".toList, body := ['X'] })).map
      (fun z => (z.1.closed, z.1.basenames.length)) = Except.ok (false, 1)
    ∧ ((write pbNull shaNull (addFile (newRPM { name := ['t'], version := ['1'] })
        { name := "/a/x".toList, body := ['X'] })).bind
          (fun z => write pbNull shaNull z.1)).map
        (fun z => (z.1.closed, z.1.basenames.length))
      = Except.ok (false, 2)
    ∧ ((write pbNull shaNull (addFile (newRPM { name := ['t'], version := ['1'] })
        { name := "/a/x".toList, body := ['X'] })).bind
          (fun z => write pbNull shaNull z.1)).map
        (fun z => z.2.sink.take 4)
      = Except.ok [0xed, 0xab, 0xee, 0xdb] := by
  exact ⟨rfl, rfl, rfl⟩

/-! ### C2: the two size tags of the signature header -/

/-- The uncompressed payload size accumulated by a fold of `writeFile`
is the initial value plus the total body length. -/
theorem foldl_writeFile_payloadSize (sha : List Nat → Str) :
    ∀ (fs : List RPMFile) (r : RPMState),
      (fs.foldl (writeFile sha) r).payloadSize
        = r.payloadSize + (fs.map (fun f => f.body.length)).sum := by
  intro fs
  induction fs with
  | nil => intro r; simp
  | cons f rest ih =>
    intro r
    rw [List.foldl_cons, ih]
    show (writeFile sha r f).payloadSize + _ = _
    rw [show (writeFile sha r f).payloadSize = r.payloadSize + f.body.length from rfl]
    simp
    omega

/-- The final state of a successful write. -/
theorem writeBody_state (pb : List CpioRecord → List Nat) (sha : List Nat → Str)
    (r : RPMState) :
    (writeBody pb sha r).1 = writeState sha r := by
  simp only [writeBody]

/-- The signature index of a successful write. -/
theorem writeBody_sigIndex (pb : List CpioRecord → List Nat) (sha : List Nat → Str)
    (r : RPMState) :
    (writeBody pb sha r).2.sigIndex = sigIndexOf pb sha r := by
  simp only [writeBody]

/-- The payload buffer of a successful write. -/
theorem writeBody_payload (pb : List CpioRecord → List Nat) (sha : List Nat → Str)
    (r : RPMState) :
    (writeBody pb sha r).2.payload = pb (writeState sha r).cpio := by
  simp only [writeBody]

/-- The immutable header bytes of a successful write. -/
theorem writeBody_hb (pb : List CpioRecord → List Nat) (sha : List Nat → Str)
    (r : RPMState) :
    (writeBody pb sha r).2.hb = hbOf sha r := by
  simp only [writeBody]

/-- The immutable index of a successful write. -/
theorem writeBody_immIndex (pb : List CpioRecord → List Nat) (sha : List Nat → Str)
    (r : RPMState) :
    (writeBody pb sha r).2.immIndex = immIndexOf sha r := by
  simp only [writeBody]

/-- The immutable header bytes are the header serialisation of the
immutable index. -/
theorem hbOf_eq (sha : List Nat → Str) (r : RPMState) :
    hbOf sha r = headerBytes immutable (immIndexOf sha r) := by
  simp only [hbOf]

/-- The signature index is built by `writeSignatures` from the
compressed buffer length, the accumulated uncompressed size and the
immutable header bytes. -/
theorem sigIndexOf_eq (pb : List CpioRecord → List Nat) (sha : List Nat → Str)
    (r : RPMState) :
    sigIndexOf pb sha r
      = writeSignatures sha (pb (writeState sha r).cpio).length
          (writeState sha r).payloadSize (hbOf sha r) [] := by
  simp only [sigIndexOf]

/-- The final state is the fold of `writeFile` over the sorted files. -/
theorem writeState_eq (sha : List Nat → Str) (r : RPMState) :
    writeState sha r = (sortFiles r.files).foldl (writeFile sha) r := rfl

/-- An open assembler writes successfully. -/
theorem write_ok (pb : List CpioRecord → List Nat) (sha : List Nat → Str)
    (r : RPMState) (hcl : r.closed = false) :
    write pb sha r = Except.ok (writeBody pb sha r) := by
  unfold write
  rw [hcl]
  rfl

/-- `writeSignatures` on an empty signature index produces exactly the
three entries, in insertion order. -/
theorem writeSignatures_eval (sha : List Nat → Str) (pl ps : Nat) (hb : List Nat) :
    writeSignatures sha pl ps hb []
      = [(sigSize, int32Entry [goInt32 ((pl : Int) + hb.length)]),
         (sigSHA256, stringEntry (sha hb)),
         (sigPayloadSize, int32Entry [goInt32 (ps : Int)])] := rfl

/-- Looking up the payload-size tag in the signature index. -/
theorem indexGet_sigPayloadSize (e1 e2 e3 : IndexEntry) :
    indexGet [(sigSize, e1), (sigSHA256, e2), (sigPayloadSize, e3)] sigPayloadSize
      = some e3 := rfl

/-- Looking up the size tag in the signature index. -/
theorem indexGet_sigSize (e1 e2 e3 : IndexEntry) :
    indexGet [(sigSize, e1), (sigSHA256, e2), (sigPayloadSize, e3)] sigSize
      = some e1 := rfl

/-- The data bytes of a single-value int32 entry. -/
theorem int32Entry_single (x : Int) : (int32Entry [x]).data = beInt32 x := by
  simp [int32Entry]

/-- Go's int32 conversion is idempotent. -/
theorem goInt32_idem (x : Int) : goInt32 (goInt32 x) = goInt32 x := by
  unfold goInt32
  split_ifs <;> omega

/-- C2 counterexample: for an assembler with no files the stored
`sigPayloadSize` value is 0, while the uncompressed cpio stream
consists of the trailer record and occupies 124 bytes — the claim's
"uncompressed cpio stream size" does not match the stored tag. -/
theorem sigPayloadSize_counterexample :
    (write pbNull shaNull (newRPM { name := ['t'], version := ['1'] })).map
        (fun z => (indexGet z.2.sigIndex sigPayloadSize).map
          (fun e => decodeSigned32 e.data))
      = Except.ok (some 0)
    ∧ (write pbNull shaNull (newRPM { name := ['t'], version := ['1'] })).map
        (fun z => z.1.cpio) = Except.ok []
    ∧ cpioStreamLen [] = 124
    ∧ (0 : Int) ≠ 124 := by
  exact ⟨rfl, rfl, rfl, by decide⟩

/-- C2 amended: `sigPayloadSize` stores the accumulated uncompressed
file content bytes (the sum of the emitted bodies' lengths, cpio
framing excluded), and `sigSize` stores the compressed payload buffer
length plus the immutable header length, both through Go's int32
conversion. -/
theorem writeSignatures_sizes (pb : List CpioRecord → List Nat)
    (sha : List Nat → Str) (r : RPMState) (z : RPMState × WriteOutput)
    (hps : r.payloadSize = 0) (hw : write pb sha r = Except.ok z) :
    indexGet z.2.sigIndex sigPayloadSize
      = some (int32Entry
          [goInt32 (Int.ofNat (((sortFiles r.files).map (fun f => f.body.length)).sum))])
    ∧ ((sortFiles r.files).map (fun f => f.body.length)).sum
        = (r.files.map (fun f => f.body.length)).sum
    ∧ indexGet z.2.sigIndex sigSize
        = some (int32Entry [goInt32 ((z.2.payload.length : Int) + z.2.hb.length)])
    ∧ z.2.payload = pb z.1.cpio
    ∧ z.2.hb = headerBytes immutable z.2.immIndex := by
  have hperm : ((sortFiles r.files).map (fun f => f.body.length)).sum
      = (r.files.map (fun f => f.body.length)).sum :=
    ((List.perm_insertionSort fileLe r.files).map (fun f => f.body.length)).sum_eq
  cases hcl : r.closed with
  | true =>
    unfold write at hw
    rw [hcl] at hw
    simp at hw
  | false =>
    rw [write_ok pb sha r hcl, Except.ok.injEq] at hw
    subst hw
    refine ⟨?_, hperm, ?_, ?_, ?_⟩
    · rw [writeBody_sigIndex, sigIndexOf_eq, writeSignatures_eval,
        indexGet_sigPayloadSize, writeState_eq, foldl_writeFile_payloadSize, hps,
        Nat.zero_add]
      rfl
    · rw [writeBody_sigIndex, sigIndexOf_eq, writeSignatures_eval, indexGet_sigSize,
        writeBody_payload, writeBody_hb]
    · rw [writeBody_payload, writeBody_state]
    · rw [writeBody_hb, writeBody_immIndex, hbOf_eq]

/-- A witness for `writeSignatures_sizes` on a one-file assembler with
a three-byte body. -/
theorem writeSignatures_sizes_witness :
    ∃ z, write pbNull shaNull (addFile (newRPM { name := ['t'], version := ['1'] })
        { name := "/a/x".toList, body := ['X', 'Y', 'Z'] }) = Except.ok z
      ∧ indexGet z.2.sigIndex sigPayloadSize = some (int32Entry [goInt32 3]) := by
  have hz := write_ok pbNull shaNull
    (addFile (newRPM { name := ['t'], version := ['1'] })
      { name := "/a/x".toList, body := ['X', 'Y', 'Z'] }) rfl
  have h := writeSignatures_sizes pbNull shaNull _ _ rfl hz
  refine ⟨_, hz, ?_⟩
  rw [h.1]
  rfl

/-! ### C10: int32 conversion of the signature sizes -/

/-- Decoding the stored bytes of an int32 entry recovers exactly Go's
`int32` conversion of the original value. -/
theorem decodeSigned32_beInt32 (x : Int) : decodeSigned32 (beInt32 x) = goInt32 x := by
  have h1 : toU32 x < 2 ^ 32 := by
    unfold toU32
    omega
  have h2 : decodeBe32 (beInt32 x) = toU32 x := decodeBe32_beBytes32 _ h1
  simp only [decodeSigned32, h2]
  unfold goInt32 toU32
  split_ifs <;> omega

/-- C10: the two size values of the signature header are stored as the
native sums reduced modulo `2 ^ 32` and reinterpreted as signed int32
values; at `2 ^ 31` the stored payload size silently becomes
`-2 ^ 31`, and no failure of any kind is raised by the write path for
an open assembler. -/
theorem sig_sizes_int32_wrap (sha : List Nat → Str) (pl ps : Nat) (hb : List Nat) :
    (indexGet (writeSignatures sha pl ps hb []) sigSize).map
        (fun e => decodeSigned32 e.data) = some (goInt32 ((pl : Int) + hb.length))
    ∧ (indexGet (writeSignatures sha pl ps hb []) sigPayloadSize).map
        (fun e => decodeSigned32 e.data) = some (goInt32 ps)
    ∧ (ps = 2 ^ 31 → goInt32 ps = -(2 ^ 31))
    ∧ goInt32 ((2 : Int) ^ 31) < 0
    ∧ (∀ (pb : List CpioRecord → List Nat) (r : RPMState), r.closed = false →
        ∃ z, write pb sha r = Except.ok z) := by
  refine ⟨?_, ?_, ?_, by decide, ?_⟩
  · rw [writeSignatures_eval, indexGet_sigSize, Option.map_some', int32Entry_single,
      decodeSigned32_beInt32, goInt32_idem]
  · rw [writeSignatures_eval, indexGet_sigPayloadSize, Option.map_some',
      int32Entry_single, decodeSigned32_beInt32, goInt32_idem]
  · intro hps
    subst hps
    unfold goInt32
    norm_num
  · intro pb r hcl
    exact ⟨_, write_ok pb sha r hcl⟩

/-- A witness for `sig_sizes_int32_wrap` at a payload size of exactly
`2 ^ 31` bytes: the stored signed value is negative. -/
theorem sig_sizes_int32_wrap_witness :
    (indexGet (writeSignatures shaNull 0 (2 ^ 31) [] []) sigPayloadSize).map
        (fun e => decodeSigned32 e.data) = some (-(2 ^ 31) : Int) := by
  have h := sig_sizes_int32_wrap shaNull 0 (2 ^ 31) []
  rw [h.2.1, h.2.2.1 rfl]

end Rpmpack
